import Mathlib

/-!
Shallow embedding of the auction bot's core (`services.py`) and the parts of its
domain/repository layer that the service code relies on.  Times are modelled as
integer minutes, monetary amounts as rationals, UUIDs as natural-number tokens
supplied by the caller (`datetime.now()` / `uuid4()` become explicit parameters).
Notification dispatch is modelled as an explicit event trace.
-/

namespace AuctionBot

abbrev Time := Int
abbrev UserId := Int
abbrev AuctionId := Nat
abbrev BidId := Nat

inductive AuctionStatus
  | scheduled
  | active
  | completed
deriving DecidableEq

/-- Modelled from the spec: the `domain` module's `User` is not among the sources;
per the spec a user has an opaque numeric id, display name, admin flag and
blocked flag (plus the optional profile fields `register_user` passes along). -/
structure User where
  user_id : UserId
  username : String
  telegram_handle : Option String := none
  first_name : Option String := none
  last_name : Option String := none
  is_admin : Bool := false
  blocked : Bool := false
deriving DecidableEq

/-- Modelled from the spec: the `domain` module's `Bid` is not among the sources;
fields follow the keyword arguments used at the construction site in
`AuctionService.place_bid`. -/
structure Bid where
  bid_id : BidId
  auction_id : AuctionId
  user_id : UserId
  amount : Rat
  created_at : Time
  username : String
deriving DecidableEq

/-- Modelled from the spec: the `domain` module's `Auction` is not among the
sources; fields follow the keyword arguments used at the construction site in
`AuctionService.create_auction` plus the `winner_id` field mutated on completion. -/
structure Auction where
  auction_id : AuctionId
  title : String
  description : Option String := none
  photo_url : Option String := none
  start_price : Rat
  current_price : Rat
  status : AuctionStatus
  creator_id : UserId
  participants : List UserId
  bids : List Bid
  created_at : Time
  start_time : Time
  end_time : Option Time := none
  winner_id : Option UserId := none
  initial_leader_username : Option String := none
deriving DecidableEq

/-- Modelled from the spec: `Auction.current_leader` lives in the missing
`domain` module; the spec says it "returns the bid with the maximum amount, or
none if bids is empty", tie-break first inserted. -/
def Auction.current_leader (a : Auction) : Option Bid :=
  a.bids.foldl
    (fun acc b =>
      match acc with
      | none => some b
      | some m => if m.amount < b.amount then some b else acc)
    none

/-- Modelled from the spec: `is_active` is a pure status predicate of the
missing `domain` module. -/
def Auction.is_active (a : Auction) : Bool :=
  decide (a.status = AuctionStatus.active)

/-- Modelled from the spec: `is_scheduled` is a pure status predicate of the
missing `domain` module. -/
def Auction.is_scheduled (a : Auction) : Bool :=
  decide (a.status = AuctionStatus.scheduled)

/-- Modelled from the spec: the repository's `get_user(id) -> Option<User>`
(the `repositories` module is not among the sources). -/
def get_user (users : List User) (uid : UserId) : Option User :=
  users.find? (fun u => decide (u.user_id = uid))

/-- Modelled from the spec: the repository's `get_auction(id) -> Option<Auction>`. -/
def get_auction (auctions : List Auction) (aid : AuctionId) : Option Auction :=
  auctions.find? (fun a => decide (a.auction_id = aid))

/-- Modelled from the spec: the repository's `update_auction` with full-replace
semantics, replacing the stored auction carrying the same id. -/
def update_auction (auctions : List Auction) (a' : Auction) : List Auction :=
  auctions.map (fun a => if a.auction_id = a'.auction_id then a' else a)

/-- Modelled from the spec: the repository's `save_auction`, appending a newly
created auction to the store. -/
def save_auction (auctions : List Auction) (a : Auction) : List Auction :=
  auctions ++ [a]

/-- Modelled from the spec: the repository's `get_active_auctions`, the stored
auctions whose status is Active. -/
def get_active_auctions (auctions : List Auction) : List Auction :=
  auctions.filter (fun a => a.is_active)

def insertByStart (a : Auction) : List Auction → List Auction
  | [] => [a]
  | b :: bs => if a.start_time < b.start_time then a :: b :: bs else b :: insertByStart a bs

def sortByStart (l : List Auction) : List Auction :=
  l.foldr insertByStart []

/-- Modelled from the spec: the repository's `get_scheduled_auctions`, the
Scheduled auctions "ordered by start_time ascending". -/
def get_scheduled_auctions (auctions : List Auction) : List Auction :=
  sortByStart (auctions.filter (fun a => a.is_scheduled))

/-- Combined persistent state seen by `AuctionService`: the user store and the
auction store of the repository collaborators. -/
structure ServiceState where
  users : List User
  auctions : List Auction
deriving DecidableEq

/-- Notification events, one constructor per `NotificationService` method the
core dispatches. -/
inductive Notif
  | bidPlaced (aid : AuctionId) (bid : Bid)
  | bidOvertaken (aid : AuctionId) (overtaken : UserId) (bid : Bid)
  | auctionEnded (aid : AuctionId)
  | auctionStarted (aid : AuctionId)
deriving DecidableEq

/-- `max((a.end_time for a in active if a.end_time), default=now)` from
`AuctionService.create_auction`. -/
def latestEndTime (now : Time) (active : List Auction) : Time :=
  match active.filterMap Auction.end_time with
  | [] => now
  | t :: ts => ts.foldl max t

/-- The branch of `AuctionService.create_auction` choosing start time, end time
and status: scheduled one minute after the latest active end time when active
auctions exist, otherwise active starting now; `end_time` absent when the
duration is not positive. -/
def newAuctionTiming (auctions : List Auction) (now : Time) (duration_hours : Int) :
    Time × Option Time × AuctionStatus :=
  let active_auctions := get_active_auctions auctions
  if active_auctions ≠ [] then
    let start_time := latestEndTime now active_auctions + 1
    let end_time := if 0 < duration_hours then some (start_time + 60 * duration_hours) else none
    (start_time, end_time, AuctionStatus.scheduled)
  else
    let start_time := now
    let end_time := if 0 < duration_hours then some (start_time + 60 * duration_hours) else none
    (start_time, end_time, AuctionStatus.active)

/-- The auction record built by `AuctionService.create_auction` after the
timing branch. -/
def newAuction (auctions : List Auction) (now : Time) (fresh : AuctionId)
    (creator_id : UserId) (title : String) (start_price : Rat) (duration_hours : Int)
    (description photo_url initial_leader_username : Option String) : Auction :=
  let timing := newAuctionTiming auctions now duration_hours
  { auction_id := fresh, title := title, description := description,
    photo_url := photo_url, start_price := start_price, current_price := start_price,
    status := timing.2.2, creator_id := creator_id, participants := [],
    bids := [], created_at := now, start_time := timing.1, end_time := timing.2.1,
    initial_leader_username := initial_leader_username }

/-- `AuctionService.create_auction`. -/
def create_auction (s : ServiceState) (now : Time) (fresh : AuctionId)
    (creator_id : UserId) (title : String) (start_price : Rat) (duration_hours : Int)
    (description photo_url initial_leader_username : Option String) :
    AuctionId × ServiceState :=
  let auction := newAuction s.auctions now fresh creator_id title start_price
      duration_hours description photo_url initial_leader_username
  (fresh, { s with auctions := save_auction s.auctions auction })

/-- `AuctionService.activate_scheduled_auction`; the third component is the
notification trace of the call (the source dispatches none here). -/
def activate_scheduled_auction (auctions : List Auction) (aid : AuctionId) :
    Bool × List Auction × List Notif :=
  match get_auction auctions aid with
  | none => (false, auctions, [])
  | some auction =>
    if auction.status ≠ AuctionStatus.scheduled then (false, auctions, [])
    else (true, update_auction auctions { auction with status := AuctionStatus.active }, [])

/-- `AuctionService.join_auction`. -/
def join_auction (s : ServiceState) (aid : AuctionId) (uid : UserId) :
    Bool × List Auction :=
  match get_auction s.auctions aid with
  | none => (false, s.auctions)
  | some auction =>
    if auction.is_active = false then (false, s.auctions)
    else
      match get_user s.users uid with
      | none => (false, s.auctions)
      | some _ =>
        if uid ∉ auction.participants then
          (true, update_auction s.auctions
            { auction with participants := auction.participants ++ [uid] })
        else (true, s.auctions)

/-- `AuctionService.place_bid`; the third component is the dispatched
notification trace, in dispatch order. -/
def place_bid (s : ServiceState) (now : Time) (fresh : BidId) (aid : AuctionId)
    (uid : UserId) (amount : Rat) : Bool × List Auction × List Notif :=
  match get_auction s.auctions aid with
  | none => (false, s.auctions, [])
  | some auction =>
    if auction.is_active = false then (false, s.auctions, [])
    else if uid ∉ auction.participants then (false, s.auctions, [])
    else if amount ≤ auction.current_price then (false, s.auctions, [])
    else
      match get_user s.users uid with
      | none => (false, s.auctions, [])
      | some user =>
        let previous_leader := auction.current_leader
        let bid : Bid := { bid_id := fresh, auction_id := aid, user_id := uid,
                           amount := amount, created_at := now, username := user.username }
        let auction' := { auction with bids := auction.bids ++ [bid], current_price := amount }
        let overtaken : List Notif :=
          match previous_leader with
          | some pl => if pl.user_id ≠ uid then [Notif.bidOvertaken aid pl.user_id bid] else []
          | none => []
        (true, update_auction s.auctions auction', Notif.bidPlaced aid bid :: overtaken)

/-- `AuctionService.end_auction`. -/
def end_auction (s : ServiceState) (aid : AuctionId) (admin_id : UserId) :
    Bool × List Auction × List Notif :=
  match get_auction s.auctions aid with
  | none => (false, s.auctions, [])
  | some auction =>
    if auction.status ≠ AuctionStatus.active then (false, s.auctions, [])
    else
      match get_user s.users admin_id with
      | none => (false, s.auctions, [])
      | some admin =>
        if admin.is_admin = false then (false, s.auctions, [])
        else
          let winner : Option UserId :=
            match auction.current_leader with
            | some leader => some leader.user_id
            | none => auction.winner_id
          let auction' := { auction with status := AuctionStatus.completed, winner_id := winner }
          (true, update_auction s.auctions auction', [Notif.auctionEnded aid])

/-- Completion applied by the scheduler's expiry sweep: status becomes
Completed and `winner_id` is set to the current leader's user id when a leader
exists (mirrors lines 539-542 of `services.py`). -/
def completeAuction (a : Auction) : Auction :=
  { a with status := AuctionStatus.completed,
           winner_id :=
             match a.current_leader with
             | some leader => some leader.user_id
             | none => a.winner_id }

/-- `auction.end_time and now >= auction.end_time` from the expiry sweep. -/
def auctionExpired (now : Time) (a : Auction) : Bool :=
  match a.end_time with
  | some t => decide (t ≤ now)
  | none => false

/-- One iteration of the expiry sweep's loop body over the snapshot of active
auctions, threading the store and the notification trace. -/
def expireOne (now : Time) (acc : List Auction × List Notif) (a : Auction) :
    List Auction × List Notif :=
  if auctionExpired now a then
    (update_auction acc.1 (completeAuction a), acc.2 ++ [Notif.auctionEnded a.auction_id])
  else acc

/-- The expiry sweep of `AuctionScheduler._check_expired_auctions`: fold the
loop body over the snapshot of currently active auctions. -/
def expirySweep (now : Time) (auctions : List Auction) : List Auction × List Notif :=
  (get_active_auctions auctions).foldl (expireOne now) (auctions, [])

/-- `AuctionScheduler._check_expired_auctions`: expiry sweep, then — only when
no active auction remains — activation of the first scheduled auction whose
start time has passed, followed by the started-notification. -/
def checkExpiredAuctions (s : ServiceState) (now : Time) : List Auction × List Notif :=
  let swept := expirySweep now s.auctions
  let active_auctions := get_active_auctions swept.1
  if active_auctions.isEmpty then
    match get_scheduled_auctions swept.1 with
    | [] => swept
    | next :: _ =>
      if next.start_time ≤ now then
        let act := activate_scheduled_auction swept.1 next.auction_id
        (act.2.1, swept.2 ++ act.2.2 ++ [Notif.auctionStarted next.auction_id])
      else swept
  else swept

/-- One Lifecycle Service operation or scheduler sweep, with its explicit time
and fresh-id inputs. -/
inductive Op
  | createA (now : Time) (fresh : AuctionId) (creator : UserId) (title : String)
      (start_price : Rat) (duration_hours : Int)
  | joinA (aid : AuctionId) (uid : UserId)
  | bidA (now : Time) (fresh : BidId) (aid : AuctionId) (uid : UserId) (amount : Rat)
  | endA (aid : AuctionId) (admin : UserId)
  | activateA (aid : AuctionId)
  | tick (now : Time)

/-- Apply one operation to the service state, discarding results and traces. -/
def step (s : ServiceState) : Op → ServiceState
  | Op.createA now fresh creator title sp dur =>
      (create_auction s now fresh creator title sp dur none none none).2
  | Op.joinA aid uid => { s with auctions := (join_auction s aid uid).2 }
  | Op.bidA now fresh aid uid amount =>
      { s with auctions := (place_bid s now fresh aid uid amount).2.1 }
  | Op.endA aid admin => { s with auctions := (end_auction s aid admin).2.1 }
  | Op.activateA aid => { s with auctions := (activate_scheduled_auction s.auctions aid).2.1 }
  | Op.tick now => { s with auctions := (checkExpiredAuctions s now).1 }

def runOps (s : ServiceState) (ops : List Op) : ServiceState :=
  ops.foldl step s

/-- Initial state: registered users, no auctions yet. -/
def initState (users : List User) : ServiceState :=
  { users := users, auctions := [] }

/-- `max(bid.amount for bid in bids, default=d)` computed as a left fold. -/
def maxAmount (d : Rat) (bids : List Bid) : Rat :=
  bids.foldl (fun m b => max m b.amount) d

/-- The mutation the expiry sweep's loop body applies to a snapshot element. -/
def gExpire (now : Time) (a : Auction) : Auction :=
  if auctionExpired now a then completeAuction a else a

/-- Pointwise effect of one scheduler expiry sweep on a stored auction. -/
def expireStep (now : Time) (a : Auction) : Auction :=
  if a.status = AuctionStatus.active then gExpire now a else a

/-! Concrete sample data used to evaluate the definitions on closed inputs. -/

def sampleUser : User := { user_id := 7, username := "alice" }

def blockedUser : User := { user_id := 9, username := "carol", blocked := true }

def adminUser : User := { user_id := 11, username := "root", is_admin := true }

def sampleUsers : List User := [sampleUser, blockedUser, adminUser]

def sampleActive : Auction :=
  { auction_id := 1, title := "lot", start_price := 100, current_price := 100,
    status := AuctionStatus.active, creator_id := 5, participants := [7, 9], bids := [],
    created_at := 0, start_time := 0, end_time := some 60 }

def sampleScheduled : Auction :=
  { auction_id := 2, title := "queued", start_price := 50, current_price := 50,
    status := AuctionStatus.scheduled, creator_id := 5, participants := [], bids := [],
    created_at := 0, start_time := 61, end_time := some 181 }

def sampleState : ServiceState := { users := sampleUsers, auctions := [sampleActive] }

def leaderBid : Bid :=
  { bid_id := 1, auction_id := 1, user_id := 7, amount := 150, created_at := 1,
    username := "alice" }

def sampleActiveLed : Auction :=
  { sampleActive with bids := [leaderBid], current_price := 150 }

def sampleStateLed : ServiceState :=
  { users := sampleUsers, auctions := [sampleActiveLed] }

def sampleSchedState : ServiceState :=
  { users := sampleUsers, auctions := [sampleActiveLed, sampleScheduled] }

def witnessAuction : Auction :=
  { auction_id := 1, title := "t", start_price := 100, current_price := 100,
    status := AuctionStatus.active, creator_id := 5, participants := [], bids := [],
    created_at := 0, start_time := 0, end_time := some 60 }

def witnessBid : Bid :=
  { bid_id := 2, auction_id := 1, user_id := 7, amount := 150, created_at := 2,
    username := "alice" }

def witnessAuctionBid : Auction :=
  { witnessAuction with participants := [7], bids := [witnessBid], current_price := 150 }

def witnessOps : List Op :=
  [Op.createA 0 1 5 "t" 100 1, Op.joinA 1 7, Op.bidA 2 2 1 7 150]

def overtakeBid : Bid :=
  { bid_id := 2, auction_id := 1, user_id := 9, amount := 200, created_at := 5,
    username := "carol" }

/-- State invariant of a single auction maintained by the service operations. -/
def AuctionInv (a : Auction) : Prop :=
  a.current_price = maxAmount a.start_price a.bids
  ∧ List.Chain' (fun x y => x < y) (a.bids.map Bid.amount)
  ∧ (∀ b ∈ a.bids, a.start_price < b.amount)
  ∧ (∀ b, a.bids.getLast? = some b → b.amount = a.current_price)
  ∧ a.participants.Nodup

/-! ### Basic fold-max lemmas -/

theorem init_le_foldl_max {α : Type} [LinearOrder α] (l : List α) :
    ∀ d : α, d ≤ l.foldl max d := by
  induction l with
  | nil => intro d; exact le_refl d
  | cons a l ih =>
    intro d
    exact le_trans (le_max_left d a) (ih (max d a))

theorem mem_le_foldl_max {α : Type} [LinearOrder α] {x : α} {l : List α}
    (hx : x ∈ l) : ∀ d : α, x ≤ l.foldl max d := by
  induction l with
  | nil => cases hx
  | cons a l ih =>
    intro d
    rcases List.mem_cons.mp hx with h | h
    · subst h
      exact le_trans (le_max_right d x) (init_le_foldl_max l (max d x))
    · exact ih h (max d a)

theorem maxAmount_eq_foldl (d : Rat) (bids : List Bid) :
    maxAmount d bids = (bids.map Bid.amount).foldl max d := by
  simp [maxAmount, List.foldl_map]

theorem start_le_maxAmount (d : Rat) (bids : List Bid) : d ≤ maxAmount d bids := by
  rw [maxAmount_eq_foldl]; exact init_le_foldl_max _ d

theorem bid_le_maxAmount {b : Bid} {bids : List Bid} (hb : b ∈ bids) (d : Rat) :
    b.amount ≤ maxAmount d bids := by
  rw [maxAmount_eq_foldl]
  exact mem_le_foldl_max (List.mem_map_of_mem Bid.amount hb) d

theorem maxAmount_append (d : Rat) (l : List Bid) (b : Bid) :
    maxAmount d (l ++ [b]) = max (maxAmount d l) b.amount := by
  simp [maxAmount, List.foldl_append]

theorem maxAmount_nil (d : Rat) : maxAmount d [] = d := rfl

/-! ### Store lookup and update lemmas -/

theorem get_auction_mem {l : List Auction} {i : AuctionId} {a : Auction}
    (h : get_auction l i = some a) : a ∈ l ∧ a.auction_id = i := by
  refine ⟨List.mem_of_find?_eq_some h, ?_⟩
  have := List.find?_some h
  simpa using this

theorem get_user_mem {l : List User} {i : UserId} {u : User}
    (h : get_user l i = some u) : u ∈ l ∧ u.user_id = i := by
  refine ⟨List.mem_of_find?_eq_some h, ?_⟩
  have := List.find?_some h
  simpa using this

theorem get_auction_of_mem_nodup {l : List Auction} {a : Auction}
    (hids : (l.map Auction.auction_id).Nodup) (hmem : a ∈ l) :
    get_auction l a.auction_id = some a := by
  induction l with
  | nil => cases hmem
  | cons b l ih =>
    rcases List.mem_cons.mp hmem with h | h
    · subst h
      simp [get_auction, List.find?_cons]
    · by_cases hb : b.auction_id = a.auction_id
      · exfalso
        have : a.auction_id ∈ l.map Auction.auction_id := List.mem_map_of_mem _ h
        rw [List.map_cons, List.nodup_cons] at hids
        exact hids.1 (hb ▸ this)
      · simp only [get_auction, List.find?_cons, decide_eq_false hb]
        exact ih (by rw [List.map_cons, List.nodup_cons] at hids; exact hids.2) h

theorem get_auction_map {f : Auction → Auction}
    (hf : ∀ x, (f x).auction_id = x.auction_id) (l : List Auction) (i : AuctionId) :
    get_auction (l.map f) i = (get_auction l i).map f := by
  induction l with
  | nil => rfl
  | cons a l ih =>
    simp only [List.map_cons, get_auction, List.find?_cons, hf a]
    by_cases h : a.auction_id = i
    · simp [h]
    · simp only [decide_eq_false h]
      exact ih

theorem get_auction_update_self {l : List Auction} {i : AuctionId} {a a' : Auction}
    (h : get_auction l i = some a) (hid : a'.auction_id = i) :
    get_auction (update_auction l a') i = some a' := by
  induction l with
  | nil => cases h
  | cons b l ih =>
    by_cases hb : b.auction_id = a'.auction_id
    · simp only [update_auction, List.map_cons, if_pos hb, get_auction, List.find?_cons,
        decide_eq_true hid]
    · have hbi : ¬ b.auction_id = i := fun hc => hb (by rw [hc, hid])
      simp only [get_auction, List.find?_cons, decide_eq_false hbi] at h
      simp only [update_auction, List.map_cons, if_neg hb, get_auction, List.find?_cons,
        decide_eq_false hbi]
      exact ih h

theorem get_auction_update_ne {l : List Auction} {i : AuctionId} {a' : Auction}
    (hne : a'.auction_id ≠ i) :
    get_auction (update_auction l a') i = get_auction l i := by
  induction l with
  | nil => rfl
  | cons b l ih =>
    by_cases hb : b.auction_id = a'.auction_id
    · have hbi : ¬ b.auction_id = i := fun hc => hne (by rw [← hb, hc])
      simp only [update_auction, List.map_cons, if_pos hb, get_auction, List.find?_cons,
        decide_eq_false hne, decide_eq_false hbi]
      exact ih
    · simp only [update_auction, List.map_cons, if_neg hb, get_auction, List.find?_cons]
      by_cases hbi : b.auction_id = i
      · simp [hbi]
      · simp only [decide_eq_false hbi]
        exact ih

theorem update_auction_map_id (l : List Auction) (a' : Auction) :
    (update_auction l a').map Auction.auction_id = l.map Auction.auction_id := by
  simp only [update_auction, List.map_map]
  apply List.map_congr_left
  intro a _
  by_cases h : a.auction_id = a'.auction_id
  · simp [Function.comp, h]
  · simp [Function.comp, h]

theorem mem_update_auction {x a' : Auction} {l : List Auction}
    (hx : x ∈ update_auction l a') : x = a' ∨ x ∈ l := by
  rcases List.mem_map.mp hx with ⟨y, hy, hxy⟩
  by_cases h : y.auction_id = a'.auction_id
  · rw [if_pos h] at hxy; exact Or.inl hxy.symm
  · rw [if_neg h] at hxy; exact Or.inr (hxy ▸ hy)

theorem mem_update_of_ne {x a' : Auction} {l : List Auction}
    (hx : x ∈ l) (hne : x.auction_id ≠ a'.auction_id) : x ∈ update_auction l a' := by
  have : (if x.auction_id = a'.auction_id then a' else x) = x := if_neg hne
  exact this ▸ List.mem_map_of_mem _ hx

/-! ### Lemmas about the start-time ordering of scheduled auctions -/

theorem mem_insertByStart {x a : Auction} {l : List Auction} :
    x ∈ insertByStart a l ↔ x = a ∨ x ∈ l := by
  induction l with
  | nil => simp [insertByStart]
  | cons b bs ih =>
    by_cases h : a.start_time < b.start_time
    · simp [insertByStart, if_pos h]
    · simp only [insertByStart, if_neg h, List.mem_cons, ih]
      tauto

theorem mem_sortByStart {x : Auction} {l : List Auction} :
    x ∈ sortByStart l ↔ x ∈ l := by
  induction l with
  | nil => simp [sortByStart]
  | cons b bs ih =>
    simp only [sortByStart, List.foldr_cons]
    rw [show List.foldr insertByStart [] bs = sortByStart bs from rfl] at *
    simp [mem_insertByStart, ih]

theorem insertByStart_chain {a : Auction} {l : List Auction}
    (h : List.Chain' (fun x y => x.start_time ≤ y.start_time) l) :
    List.Chain' (fun x y => x.start_time ≤ y.start_time) (insertByStart a l) := by
  induction l with
  | nil => simp [insertByStart]
  | cons b bs ih =>
    rw [List.chain'_cons'] at h
    by_cases hab : a.start_time < b.start_time
    · rw [insertByStart, if_pos hab, List.chain'_cons']
      refine ⟨fun y hy => ?_, List.chain'_cons'.mpr h⟩
      simp only [List.head?_cons, Option.mem_def, Option.some.injEq] at hy
      subst hy
      exact le_of_lt hab
    · rw [insertByStart, if_neg hab, List.chain'_cons']
      refine ⟨fun y hy => ?_, ih h.2⟩
      cases bs with
      | nil =>
        simp only [insertByStart, List.head?_cons, Option.mem_def, Option.some.injEq] at hy
        subst hy
        exact le_of_not_lt hab
      | cons c cs =>
        by_cases hac : a.start_time < c.start_time
        · simp only [insertByStart, if_pos hac, List.head?_cons, Option.mem_def,
            Option.some.injEq] at hy
          subst hy
          exact le_of_not_lt hab
        · simp only [insertByStart, if_neg hac, List.head?_cons, Option.mem_def,
            Option.some.injEq] at hy
          subst hy
          exact h.1 c (by simp)

theorem sortByStart_chain (l : List Auction) :
    List.Chain' (fun x y => x.start_time ≤ y.start_time) (sortByStart l) := by
  induction l with
  | nil => simp [sortByStart]
  | cons b bs ih => exact insertByStart_chain ih

theorem chain'_head_min {x : Auction} {l : List Auction}
    (h : List.Chain' (fun a b => a.start_time ≤ b.start_time) (x :: l)) :
    ∀ y ∈ l, x.start_time ≤ y.start_time := by
  induction l generalizing x with
  | nil => intro y hy; cases hy
  | cons b bs ih =>
    intro y hy
    rw [List.chain'_cons] at h
    rcases List.mem_cons.mp hy with h' | h'
    · exact h' ▸ h.1
    · exact le_trans h.1 (ih h.2 y h')

theorem sortByStart_head_min {next : Auction} {rest l : List Auction}
    (h : sortByStart l = next :: rest) :
    ∀ y ∈ l, next.start_time ≤ y.start_time := by
  intro y hy
  have hy' : y ∈ sortByStart l := mem_sortByStart.mpr hy
  rw [h] at hy'
  rcases List.mem_cons.mp hy' with h' | h'
  · exact h' ▸ le_refl _
  · have := sortByStart_chain l
    rw [h] at this
    exact chain'_head_min this y h'

/-! ### getLast? helpers -/

theorem getLast?_of_ne_nil {α : Type} {l : List α} (h : l ≠ []) :
    ∃ b, l.getLast? = some b ∧ b ∈ l := by
  induction l with
  | nil => exact absurd rfl h
  | cons a l ih =>
    cases l with
    | nil => exact ⟨a, rfl, by simp⟩
    | cons c cs =>
      rcases ih (by simp) with ⟨b, hb, hbm⟩
      exact ⟨b, by rw [List.getLast?_cons_cons]; exact hb, by simp [hbm]⟩

theorem getLast?_map_amount (l : List Bid) :
    (l.map Bid.amount).getLast? = l.getLast?.map Bid.amount := by
  induction l with
  | nil => rfl
  | cons a l ih =>
    cases l with
    | nil => rfl
    | cons c cs =>
      simp only [List.map_cons, List.getLast?_cons_cons] at *
      exact ih

/-! ### Preservation of the auction invariant -/

theorem auctionInv_of_fields {a a' : Auction}
    (hsp : a'.start_price = a.start_price) (hcp : a'.current_price = a.current_price)
    (hb : a'.bids = a.bids) (hp : a'.participants = a.participants)
    (h : AuctionInv a) : AuctionInv a' := by
  unfold AuctionInv at *
  rw [hsp, hcp, hb, hp]
  exact h

theorem auctionInv_completeAuction {a : Auction} (h : AuctionInv a) :
    AuctionInv (completeAuction a) :=
  auctionInv_of_fields rfl rfl rfl rfl h

theorem auctionInv_newAuction (auctions : List Auction) (now : Time) (fresh : AuctionId)
    (creator_id : UserId) (title : String) (start_price : Rat) (duration_hours : Int)
    (d p ilu : Option String) :
    AuctionInv (newAuction auctions now fresh creator_id title start_price
      duration_hours d p ilu) := by
  unfold newAuction AuctionInv
  simp [maxAmount]

theorem auctionInv_appendBid {a : Auction} {bid : Bid}
    (h : AuctionInv a) (hgt : a.current_price < bid.amount) :
    AuctionInv { a with bids := a.bids ++ [bid], current_price := bid.amount } := by
  obtain ⟨hmax, hchain, hstart, hlast, hnd⟩ := h
  refine ⟨?_, ?_, ?_, ?_, hnd⟩
  · show bid.amount = maxAmount a.start_price (a.bids ++ [bid])
    rw [maxAmount_append, ← hmax]
    exact (max_eq_right (le_of_lt hgt)).symm
  · show List.Chain' (fun x y => x < y) ((a.bids ++ [bid]).map Bid.amount)
    rw [List.map_append]
    rw [List.chain'_append]
    refine ⟨hchain, List.chain'_singleton _, ?_⟩
    intro x hx y hy
    simp only [List.map_cons, List.head?_cons, Option.mem_def, Option.some.injEq] at hy
    subst hy
    rw [getLast?_map_amount] at hx
    simp only [Option.mem_def, Option.map_eq_some'] at hx
    rcases hx with ⟨b, hb, hxb⟩
    subst hxb
    rw [hlast b hb]
    exact hgt
  · intro b hb
    rcases List.mem_append.mp hb with h' | h'
    · exact hstart b h'
    · rw [List.mem_singleton.mp h']
      calc a.start_price ≤ maxAmount a.start_price a.bids := start_le_maxAmount _ _
        _ = a.current_price := hmax.symm
        _ < bid.amount := hgt
  · intro b hb
    rw [List.getLast?_concat] at hb
    cases hb
    rfl

/-- Every element of an updated store is either the replacement or an original
element, so store-wide invariants are preserved by `update_auction`. -/
theorem allInv_update {l : List Auction} {a' : Auction}
    (h : ∀ a ∈ l, AuctionInv a) (h' : AuctionInv a') :
    ∀ a ∈ update_auction l a', AuctionInv a := by
  intro a ha
  rcases mem_update_auction ha with rfl | ha'
  · exact h'
  · exact h a ha'

theorem allInv_expireFold (now : Time) (todo : List Auction) :
    ∀ cur tr, (∀ a ∈ cur, AuctionInv a) → (∀ t ∈ todo, AuctionInv t) →
    ∀ a ∈ (todo.foldl (expireOne now) (cur, tr)).1, AuctionInv a := by
  induction todo with
  | nil => intro cur tr hcur _; exact hcur
  | cons t ts ih =>
    intro cur tr hcur htodo
    rw [List.foldl_cons]
    by_cases hexp : auctionExpired now t = true
    · rw [expireOne, if_pos hexp]
      exact ih _ _ (allInv_update hcur (auctionInv_completeAuction (htodo t (by simp))))
        (fun x hx => htodo x (by simp [hx]))
    · rw [expireOne, if_neg hexp]
      exact ih _ _ hcur (fun x hx => htodo x (by simp [hx]))

theorem allInv_expirySweep {now : Time} {auctions : List Auction}
    (h : ∀ a ∈ auctions, AuctionInv a) :
    ∀ a ∈ (expirySweep now auctions).1, AuctionInv a := by
  unfold expirySweep
  exact allInv_expireFold now _ _ _ h
    (fun t ht => h t (List.mem_of_mem_filter ht))

theorem allInv_activate {auctions : List Auction} {aid : AuctionId}
    (h : ∀ a ∈ auctions, AuctionInv a) :
    ∀ a ∈ (activate_scheduled_auction auctions aid).2.1, AuctionInv a := by
  unfold activate_scheduled_auction
  cases hga : get_auction auctions aid with
  | none => exact h
  | some auction =>
    dsimp only
    by_cases hst : auction.status ≠ AuctionStatus.scheduled
    · rw [if_pos hst]; exact h
    · rw [if_neg hst]
      exact allInv_update h
        (auctionInv_of_fields rfl rfl rfl rfl (h auction (get_auction_mem hga).1))

theorem allInv_checkExpired {s : ServiceState} {now : Time}
    (h : ∀ a ∈ s.auctions, AuctionInv a) :
    ∀ a ∈ (checkExpiredAuctions s now).1, AuctionInv a := by
  unfold checkExpiredAuctions
  have hswept := @allInv_expirySweep now s.auctions h
  dsimp only
  split
  · case isTrue =>
    cases hsch : get_scheduled_auctions (expirySweep now s.auctions).1 with
    | nil => exact hswept
    | cons next rest =>
      dsimp only
      by_cases hstart : next.start_time ≤ now
      · rw [if_pos hstart]
        exact allInv_activate hswept
      · rw [if_neg hstart]
        exact hswept
  · case isFalse => exact hswept

theorem allInv_step (s : ServiceState) (op : Op)
    (h : ∀ a ∈ s.auctions, AuctionInv a) :
    ∀ a ∈ (step s op).auctions, AuctionInv a := by
  cases op with
  | createA now fresh creator title sp dur =>
    intro a ha
    simp only [step, create_auction, save_auction] at ha
    rcases List.mem_append.mp ha with h' | h'
    · exact h a h'
    · rcases List.mem_singleton.mp h' with rfl
      exact auctionInv_newAuction _ _ _ _ _ _ _ _ _ _
  | joinA aid uid =>
    simp only [step]
    unfold join_auction
    cases hga : get_auction s.auctions aid with
    | none => exact h
    | some auction =>
      dsimp only
      by_cases hact : auction.is_active = false
      · rw [if_pos hact]; exact h
      · rw [if_neg hact]
        cases hgu : get_user s.users uid with
        | none => exact h
        | some u =>
          dsimp only
          by_cases hmem : uid ∉ auction.participants
          · rw [if_pos hmem]
            have hinv := h auction (get_auction_mem hga).1
            refine allInv_update h ?_
            obtain ⟨h1, h2, h3, h4, h5⟩ := hinv
            refine ⟨h1, h2, h3, h4, ?_⟩
            rw [List.nodup_append]
            refine ⟨h5, List.nodup_singleton _, ?_⟩
            intro x hx hx'
            exact hmem ((List.mem_singleton.mp hx') ▸ hx)
          · rw [if_neg hmem]; exact h
  | bidA now fresh aid uid amount =>
    simp only [step]
    unfold place_bid
    cases hga : get_auction s.auctions aid with
    | none => exact h
    | some auction =>
      dsimp only
      by_cases hact : auction.is_active = false
      · rw [if_pos hact]; exact h
      · rw [if_neg hact]
        by_cases hmem : uid ∉ auction.participants
        · rw [if_pos hmem]; exact h
        · rw [if_neg hmem]
          by_cases hle : amount ≤ auction.current_price
          · rw [if_pos hle]; exact h
          · rw [if_neg hle]
            cases hgu : get_user s.users uid with
            | none => exact h
            | some u =>
              dsimp only
              exact allInv_update h
                (@auctionInv_appendBid auction
                  { bid_id := fresh, auction_id := aid, user_id := uid,
                    amount := amount, created_at := now, username := u.username }
                  (h auction (get_auction_mem hga).1) (lt_of_not_le hle))
  | endA aid admin =>
    simp only [step]
    unfold end_auction
    cases hga : get_auction s.auctions aid with
    | none => exact h
    | some auction =>
      dsimp only
      by_cases hst : auction.status ≠ AuctionStatus.active
      · rw [if_pos hst]; exact h
      · rw [if_neg hst]
        cases hgu : get_user s.users admin with
        | none => exact h
        | some u =>
          dsimp only
          by_cases hadm : u.is_admin = false
          · rw [if_pos hadm]; exact h
          · rw [if_neg hadm]
            exact allInv_update h
              (auctionInv_of_fields rfl rfl rfl rfl (h auction (get_auction_mem hga).1))
  | activateA aid =>
    simp only [step]
    exact allInv_activate h
  | tick now =>
    simp only [step]
    exact allInv_checkExpired h

theorem allInv_runOps_aux (ops : List Op) :
    ∀ s : ServiceState, (∀ a ∈ s.auctions, AuctionInv a) →
    ∀ a ∈ (runOps s ops).auctions, AuctionInv a := by
  induction ops with
  | nil => intro s h; exact h
  | cons op ops ih =>
    intro s h
    rw [runOps, List.foldl_cons]
    exact ih (step s op) (allInv_step s op h)

/-- Every auction reachable from the empty store satisfies the invariant. -/
theorem allInv_runOps (users : List User) (ops : List Op) :
    ∀ a ∈ (runOps (initState users) ops).auctions, AuctionInv a :=
  allInv_runOps_aux ops (initState users) (by intro a ha; cases ha)

/-! ### The expiry sweep as a pointwise map (under distinct auction ids) -/

theorem completeAuction_id (a : Auction) :
    (completeAuction a).auction_id = a.auction_id := rfl

theorem gExpire_id (now : Time) (a : Auction) :
    (gExpire now a).auction_id = a.auction_id := by
  unfold gExpire; split <;> rfl

theorem expireStep_id (now : Time) (a : Auction) :
    (expireStep now a).auction_id = a.auction_id := by
  unfold expireStep; split
  · exact gExpire_id now a
  · rfl

theorem mem_get_active_iff {a : Auction} {l : List Auction} :
    a ∈ get_active_auctions l ↔ a ∈ l ∧ a.status = AuctionStatus.active := by
  simp [get_active_auctions, List.mem_filter, Auction.is_active]

theorem mem_get_scheduled_iff {a : Auction} {l : List Auction} :
    a ∈ get_scheduled_auctions l ↔ a ∈ l ∧ a.status = AuctionStatus.scheduled := by
  rw [get_scheduled_auctions, mem_sortByStart]
  simp [List.mem_filter, Auction.is_scheduled]

theorem expire_foldl_eq (now : Time) (todo : List Auction) :
    ∀ (cur : List Auction) (tr : List Notif),
    (cur.map Auction.auction_id).Nodup →
    (todo.map Auction.auction_id).Nodup →
    (∀ t ∈ todo, t ∈ cur) →
    todo.foldl (expireOne now) (cur, tr)
      = (cur.map (fun a => if a ∈ todo then gExpire now a else a),
         tr ++ (todo.filter (auctionExpired now)).map
                 (fun a => Notif.auctionEnded a.auction_id)) := by
  induction todo with
  | nil =>
    intro cur tr _ _ _
    simp
  | cons t ts ih =>
    intro cur tr hcur htodo hmem
    have htids := htodo
    rw [List.map_cons, List.nodup_cons] at htids
    obtain ⟨hnotin, hts⟩ := htids
    have hmem_t : t ∈ cur := hmem t (by simp)
    have hts_ne : ∀ x ∈ ts, x.auction_id ≠ t.auction_id := by
      intro x hx hc
      exact hnotin (hc ▸ List.mem_map_of_mem Auction.auction_id hx)
    rw [List.foldl_cons]
    by_cases hexp : auctionExpired now t = true
    · rw [show expireOne now (cur, tr) t
          = (update_auction cur (completeAuction t),
             tr ++ [Notif.auctionEnded t.auction_id]) from by
        rw [expireOne, if_pos hexp]]
      have hcur1 : ((update_auction cur (completeAuction t)).map Auction.auction_id).Nodup := by
        rw [update_auction_map_id]; exact hcur
      have hmem1 : ∀ x ∈ ts, x ∈ update_auction cur (completeAuction t) := by
        intro x hx
        exact mem_update_of_ne (hmem x (by simp [hx]))
          (by rw [completeAuction_id]; exact hts_ne x hx)
      rw [ih _ _ hcur1 hts hmem1]
      rw [List.filter_cons_of_pos hexp, List.map_cons]
      refine Prod.ext ?_ (by simp)
      show (update_auction cur (completeAuction t)).map
          (fun a => if a ∈ ts then gExpire now a else a)
        = cur.map (fun a => if a ∈ t :: ts then gExpire now a else a)
      rw [update_auction, List.map_map]
      apply List.map_congr_left
      intro a ha
      by_cases hid : a.auction_id = (completeAuction t).auction_id
      · have hat : a = t :=
          List.inj_on_of_nodup_map hcur ha hmem_t (by rw [hid, completeAuction_id])
        simp only [Function.comp, if_pos hid]
        have hct_notin : completeAuction t ∉ ts := by
          intro hc
          exact hnotin (completeAuction_id t ▸ List.mem_map_of_mem Auction.auction_id hc)
        rw [if_neg hct_notin, hat, if_pos (List.mem_cons_self t ts), gExpire, if_pos hexp]
      · have hat : a ≠ t := by
          intro hc
          exact hid (by rw [hc, completeAuction_id])
        simp only [Function.comp, if_neg hid]
        by_cases hats : a ∈ ts
        · rw [if_pos hats, if_pos (List.mem_cons_of_mem t hats)]
        · rw [if_neg hats, if_neg (by simp [hat, hats])]
    · rw [show expireOne now (cur, tr) t = (cur, tr) from by rw [expireOne, if_neg hexp]]
      rw [ih _ _ hcur hts (fun x hx => hmem x (by simp [hx]))]
      rw [List.filter_cons_of_neg hexp]
      refine Prod.ext ?_ rfl
      show cur.map (fun a => if a ∈ ts then gExpire now a else a)
        = cur.map (fun a => if a ∈ t :: ts then gExpire now a else a)
      apply List.map_congr_left
      intro a ha
      by_cases hats : a ∈ ts
      · rw [if_pos hats, if_pos (List.mem_cons_of_mem t hats)]
      · by_cases hat : a = t
        · rw [if_neg hats, if_pos (by simp [hat]), hat, gExpire, if_neg hexp]
        · rw [if_neg hats, if_neg (by simp [hat, hats])]

theorem expirySweep_eq (now : Time) (auctions : List Auction)
    (hids : (auctions.map Auction.auction_id).Nodup) :
    expirySweep now auctions
      = (auctions.map (expireStep now),
         ((get_active_auctions auctions).filter (auctionExpired now)).map
           (fun a => Notif.auctionEnded a.auction_id)) := by
  unfold expirySweep
  have htodo : ((get_active_auctions auctions).map Auction.auction_id).Nodup :=
    List.Nodup.sublist (List.Sublist.map Auction.auction_id (List.filter_sublist auctions)) hids
  rw [expire_foldl_eq now (get_active_auctions auctions) auctions [] hids htodo
    (fun t ht => List.mem_of_mem_filter ht)]
  refine Prod.ext ?_ (by simp)
  show auctions.map (fun a => if a ∈ get_active_auctions auctions then gExpire now a else a)
    = auctions.map (expireStep now)
  apply List.map_congr_left
  intro a ha
  by_cases hact : a.status = AuctionStatus.active
  · rw [if_pos (mem_get_active_iff.mpr ⟨ha, hact⟩), expireStep, if_pos hact]
  · rw [if_neg (fun hc => hact (mem_get_active_iff.mp hc).2), expireStep, if_neg hact]

theorem expirySweep_ids (now : Time) (auctions : List Auction)
    (hids : (auctions.map Auction.auction_id).Nodup) :
    ((expirySweep now auctions).1.map Auction.auction_id).Nodup := by
  rw [expirySweep_eq now auctions hids]
  show ((auctions.map (expireStep now)).map Auction.auction_id).Nodup
  rw [List.map_map]
  have : (Auction.auction_id ∘ expireStep now) = Auction.auction_id := by
    funext a
    exact expireStep_id now a
  rw [this]
  exact hids

theorem get_auction_expirySweep {now : Time} {auctions : List Auction} {a : Auction}
    (hids : (auctions.map Auction.auction_id).Nodup) (ha : a ∈ auctions) :
    get_auction (expirySweep now auctions).1 a.auction_id = some (expireStep now a) := by
  rw [expirySweep_eq now auctions hids]
  show get_auction (auctions.map (expireStep now)) a.auction_id = _
  rw [get_auction_map (expireStep_id now), get_auction_of_mem_nodup hids ha]
  rfl

theorem users_step (s : ServiceState) (op : Op) : (step s op).users = s.users := by
  cases op <;> rfl

theorem users_runOps (users : List User) (ops : List Op) :
    (runOps (initState users) ops).users = users := by
  suffices h : ∀ s : ServiceState, (runOps s ops).users = s.users by
    exact h (initState users)
  induction ops with
  | nil => intro s; rfl
  | cons op ops ih =>
    intro s
    rw [runOps, List.foldl_cons]
    rw [show List.foldl step (step s op) ops = runOps (step s op) ops from rfl]
    rw [ih (step s op), users_step]

/-! ### Case-shape lemmas for the service operations -/

theorem place_bid_shape (s : ServiceState) (now : Time) (fresh : BidId) (aid : AuctionId)
    (uid : UserId) (amount : Rat) :
    place_bid s now fresh aid uid amount = (false, s.auctions, [])
    ∨ (place_bid s now fresh aid uid amount).1 = true := by
  unfold place_bid
  cases hga : get_auction s.auctions aid with
  | none => exact Or.inl rfl
  | some a =>
    dsimp only
    by_cases h1 : a.is_active = false
    · rw [if_pos h1]; exact Or.inl rfl
    · rw [if_neg h1]
      by_cases h2 : uid ∉ a.participants
      · rw [if_pos h2]; exact Or.inl rfl
      · rw [if_neg h2]
        by_cases h3 : amount ≤ a.current_price
        · rw [if_pos h3]; exact Or.inl rfl
        · rw [if_neg h3]
          cases hgu : get_user s.users uid with
          | none => exact Or.inl rfl
          | some u => exact Or.inr rfl

theorem end_auction_cases (s : ServiceState) (aid : AuctionId) (admin_id : UserId) :
    (end_auction s aid admin_id = (false, s.auctions, [])
      ∧ ¬((∃ a, get_auction s.auctions aid = some a ∧ a.status = AuctionStatus.active)
          ∧ (∃ u, get_user s.users admin_id = some u ∧ u.is_admin = true)))
    ∨ (∃ a u, get_auction s.auctions aid = some a ∧ a.status = AuctionStatus.active
        ∧ get_user s.users admin_id = some u ∧ u.is_admin = true
        ∧ end_auction s aid admin_id
          = (true, update_auction s.auctions (completeAuction a),
             [Notif.auctionEnded aid])) := by
  unfold end_auction
  cases hga : get_auction s.auctions aid with
  | none =>
    refine Or.inl ⟨rfl, ?_⟩
    rintro ⟨⟨a, ha, _⟩, _⟩
    cases ha
  | some a =>
    dsimp only
    by_cases hst : a.status ≠ AuctionStatus.active
    · rw [if_pos hst]
      refine Or.inl ⟨rfl, ?_⟩
      rintro ⟨⟨a', ha', hact⟩, _⟩
      injection ha' with h
      exact hst (h ▸ hact)
    · rw [if_neg hst]
      cases hgu : get_user s.users admin_id with
      | none =>
        refine Or.inl ⟨rfl, ?_⟩
        rintro ⟨_, ⟨u, hu, _⟩⟩
        cases hu
      | some u =>
        dsimp only
        by_cases hadm : u.is_admin = true
        · rw [if_neg (by simp [hadm])]
          exact Or.inr ⟨a, u, rfl, not_ne_iff.mp hst, rfl, hadm, rfl⟩
        · rw [if_pos (Bool.not_eq_true u.is_admin ▸ hadm)]
          refine Or.inl ⟨rfl, ?_⟩
          rintro ⟨_, ⟨u', hu', hadm'⟩⟩
          injection hu' with h
          exact hadm (h ▸ hadm')

/-! ### Claims -/

/-- C10: whenever `place_bid` returns a failure result, the auction store
(bid lists, prices, participants, statuses) is unchanged and no notification
is dispatched. -/
theorem spec_C10 (s : ServiceState) (now : Time) (fresh : BidId) (aid : AuctionId)
    (uid : UserId) (amount : Rat)
    (h : (place_bid s now fresh aid uid amount).1 = false) :
    place_bid s now fresh aid uid amount = (false, s.auctions, []) := by
  rcases place_bid_shape s now fresh aid uid amount with hsh | hsh
  · exact hsh
  · rw [h] at hsh
    cases hsh

theorem spec_C10_witness :
    place_bid sampleState 0 2 1 8 200 = (false, sampleState.auctions, []) :=
  spec_C10 sampleState 0 2 1 8 200 (by decide)

/-- C2: a bid with amount less than or equal to the auction's current price is
rejected and changes nothing (so ties are rejected), and on every reachable
state each auction's sequence of accepted bid amounts is strictly increasing. -/
theorem spec_C2 :
    (∀ (s : ServiceState) (now : Time) (fresh : BidId) (aid : AuctionId) (uid : UserId)
        (amount : Rat) (a : Auction),
      get_auction s.auctions aid = some a → amount ≤ a.current_price →
      place_bid s now fresh aid uid amount = (false, s.auctions, []))
    ∧ (∀ (users : List User) (ops : List Op),
        ∀ a ∈ (runOps (initState users) ops).auctions,
        List.Chain' (fun x y => x < y) (a.bids.map Bid.amount)) := by
  constructor
  · intro s now fresh aid uid amount a ha hle
    unfold place_bid
    rw [ha]
    dsimp only
    by_cases h1 : a.is_active = false
    · rw [if_pos h1]
    · rw [if_neg h1]
      by_cases h2 : uid ∉ a.participants
      · rw [if_pos h2]
      · rw [if_neg h2, if_pos hle]
  · intro users ops a ha
    exact (allInv_runOps users ops a ha).2.1

theorem spec_C2_witness :
    place_bid sampleState 0 2 1 7 100 = (false, sampleState.auctions, [])
    ∧ List.Chain' (fun x y => x < y)
        ((witnessAuctionBid.bids).map Bid.amount) :=
  ⟨spec_C2.1 sampleState 0 2 1 7 100 sampleActive (by decide) (by decide),
   spec_C2.2 sampleUsers witnessOps witnessAuctionBid (by decide)⟩

/-- C6 (amended): `place_bid` and `join_auction` reject every user unknown to
the user repository, regardless of the auction's state and of the amount; the
blocked flag is never consulted, so a blocked but registered user is not
rejected (see the counterexample). -/
theorem spec_C6 (s : ServiceState) (now : Time) (fresh : BidId) (aid : AuctionId)
    (uid : UserId) (amount : Rat) (hu : get_user s.users uid = none) :
    place_bid s now fresh aid uid amount = (false, s.auctions, [])
    ∧ join_auction s aid uid = (false, s.auctions) := by
  constructor
  · unfold place_bid
    cases hga : get_auction s.auctions aid with
    | none => rfl
    | some a =>
      dsimp only
      by_cases h1 : a.is_active = false
      · rw [if_pos h1]
      · rw [if_neg h1]
        by_cases h2 : uid ∉ a.participants
        · rw [if_pos h2]
        · rw [if_neg h2]
          by_cases h3 : amount ≤ a.current_price
          · rw [if_pos h3]
          · rw [if_neg h3, hu]
  · unfold join_auction
    cases hga : get_auction s.auctions aid with
    | none => rfl
    | some a =>
      dsimp only
      by_cases h1 : a.is_active = false
      · rw [if_pos h1]
      · rw [if_neg h1, hu]

/-- C6, counterexample to the claim as stated: a registered user whose blocked
flag is set is a participant of an active auction; both `place_bid` (with an
amount above the current price) and `join_auction` succeed for this user
instead of rejecting with `UserNotEligible`. -/
theorem spec_C6_counterexample :
    blockedUser.blocked = true
    ∧ get_user sampleState.users 9 = some blockedUser
    ∧ (place_bid sampleState 0 2 1 9 150).1 = true
    ∧ (join_auction sampleState 1 9).1 = true := by decide

theorem spec_C6_witness :
    place_bid sampleState 0 2 1 42 500 = (false, sampleState.auctions, [])
    ∧ join_auction sampleState 1 42 = (false, sampleState.auctions) :=
  spec_C6 sampleState 0 2 1 42 500 (by decide)

/-- C7: `end_auction` succeeds exactly when the target auction is Active and
the caller is a registered admin; on success the auction becomes Completed with
`winner_id` the current leader's user id (if any bids exist) and the ended
notification is emitted; every failure returns a false result with the store
unchanged and no notification. -/
theorem spec_C7 (s : ServiceState) (aid : AuctionId) (admin_id : UserId) :
    ((end_auction s aid admin_id).1 = true ↔
      (∃ a, get_auction s.auctions aid = some a ∧ a.status = AuctionStatus.active)
      ∧ (∃ u, get_user s.users admin_id = some u ∧ u.is_admin = true))
    ∧ ((end_auction s aid admin_id).1 = false →
        end_auction s aid admin_id = (false, s.auctions, []))
    ∧ (∀ a, get_auction s.auctions aid = some a → a.status = AuctionStatus.active →
        ∀ u, get_user s.users admin_id = some u → u.is_admin = true →
        end_auction s aid admin_id
          = (true, update_auction s.auctions (completeAuction a),
             [Notif.auctionEnded aid])) := by
  refine ⟨⟨?_, ?_⟩, ?_, ?_⟩
  · intro htrue
    rcases end_auction_cases s aid admin_id with ⟨heq, _⟩ | ⟨a, u, ha, hact, hu, hadm, _⟩
    · rw [heq] at htrue
      cases htrue
    · exact ⟨⟨a, ha, hact⟩, ⟨u, hu, hadm⟩⟩
  · rintro ⟨⟨a, ha, hact⟩, ⟨u, hu, hadm⟩⟩
    rcases end_auction_cases s aid admin_id with ⟨_, hneg⟩ | ⟨a', u', _, _, _, _, heq⟩
    · exact absurd ⟨⟨a, ha, hact⟩, ⟨u, hu, hadm⟩⟩ hneg
    · rw [heq]
  · intro hfalse
    rcases end_auction_cases s aid admin_id with ⟨heq, _⟩ | ⟨a, u, _, _, _, _, heq⟩
    · exact heq
    · rw [heq] at hfalse
      cases hfalse
  · intro a ha hact u hu hadm
    rcases end_auction_cases s aid admin_id with ⟨_, hneg⟩ | ⟨a', u', ha', _, _, _, heq⟩
    · exact absurd ⟨⟨a, ha, hact⟩, ⟨u, hu, hadm⟩⟩ hneg
    · rw [ha] at ha'
      injection ha' with h
      rw [heq, h]

theorem spec_C7_witness :
    end_auction sampleState 1 11
      = (true, update_auction sampleState.auctions (completeAuction sampleActive),
         [Notif.auctionEnded 1])
    ∧ end_auction sampleState 1 7 = (false, sampleState.auctions, []) :=
  ⟨(spec_C7 sampleState 1 11).2.2 sampleActive (by decide) (by decide)
     adminUser (by decide) (by decide),
   (spec_C7 sampleState 1 7).2.1 (by decide)⟩

/-- C5 (amended): `activate_scheduled_auction` returns success exactly when the
auction exists with status Scheduled, in which case it becomes Active; any
other status leaves the store unchanged with a false result.  The call itself
dispatches no notification; the started-notification is dispatched by the
scheduler tick right after it calls `activate_scheduled_auction`. -/
theorem spec_C5 (auctions : List Auction) (aid : AuctionId) :
    ((activate_scheduled_auction auctions aid).1 = true ↔
      ∃ a, get_auction auctions aid = some a ∧ a.status = AuctionStatus.scheduled)
    ∧ (∀ a, get_auction auctions aid = some a → a.status = AuctionStatus.scheduled →
        activate_scheduled_auction auctions aid
          = (true, update_auction auctions { a with status := AuctionStatus.active }, []))
    ∧ ((activate_scheduled_auction auctions aid).1 = false →
        (activate_scheduled_auction auctions aid).2.1 = auctions)
    ∧ (activate_scheduled_auction auctions aid).2.2 = []
    ∧ (∀ (s : ServiceState) (now : Time) (next : Auction) (rest : List Auction),
        get_active_auctions (expirySweep now s.auctions).1 = [] →
        get_scheduled_auctions (expirySweep now s.auctions).1 = next :: rest →
        next.start_time ≤ now →
        Notif.auctionStarted next.auction_id ∈ (checkExpiredAuctions s now).2) := by
  have hshape :
      (activate_scheduled_auction auctions aid = (false, auctions, [])
        ∧ ¬ ∃ a, get_auction auctions aid = some a ∧ a.status = AuctionStatus.scheduled)
      ∨ (∃ a, get_auction auctions aid = some a ∧ a.status = AuctionStatus.scheduled
          ∧ activate_scheduled_auction auctions aid
            = (true, update_auction auctions { a with status := AuctionStatus.active },
               [])) := by
    unfold activate_scheduled_auction
    cases hga : get_auction auctions aid with
    | none =>
      refine Or.inl ⟨rfl, ?_⟩
      rintro ⟨a, ha, _⟩
      cases ha
    | some a =>
      dsimp only
      by_cases hst : a.status ≠ AuctionStatus.scheduled
      · rw [if_pos hst]
        refine Or.inl ⟨rfl, ?_⟩
        rintro ⟨a', ha', hsch⟩
        injection ha' with h
        exact hst (h ▸ hsch)
      · rw [if_neg hst]
        exact Or.inr ⟨a, rfl, not_ne_iff.mp hst, rfl⟩
  refine ⟨⟨?_, ?_⟩, ?_, ?_, ?_, ?_⟩
  · intro htrue
    rcases hshape with ⟨heq, _⟩ | ⟨a, ha, hsch, _⟩
    · rw [heq] at htrue
      cases htrue
    · exact ⟨a, ha, hsch⟩
  · rintro ⟨a, ha, hsch⟩
    rcases hshape with ⟨_, hneg⟩ | ⟨a', _, _, heq⟩
    · exact absurd ⟨a, ha, hsch⟩ hneg
    · rw [heq]
  · intro a ha hsch
    rcases hshape with ⟨_, hneg⟩ | ⟨a', ha', _, heq⟩
    · exact absurd ⟨a, ha, hsch⟩ hneg
    · rw [ha] at ha'
      injection ha' with h
      rw [heq, h]
  · intro hfalse
    rcases hshape with ⟨heq, _⟩ | ⟨a, _, _, heq⟩
    · rw [heq]
    · rw [heq] at hfalse
      cases hfalse
  · rcases hshape with ⟨heq, _⟩ | ⟨a, _, _, heq⟩ <;> rw [heq]
  · intro s now next rest hact hsch hstart
    unfold checkExpiredAuctions
    dsimp only
    rw [hact, hsch]
    dsimp only
    rw [if_pos hstart]
    simp

/-- C5, counterexample to the claim as stated: successfully activating a
scheduled auction dispatches no notification at all from within
`activate_scheduled_auction`; its notification trace is empty (the
`notify_auction_started` call lives in the scheduler, not here). -/
theorem spec_C5_counterexample :
    (activate_scheduled_auction [sampleScheduled] 2).1 = true
    ∧ (activate_scheduled_auction [sampleScheduled] 2).2.2 = [] := by decide

theorem spec_C5_witness :
    activate_scheduled_auction [sampleScheduled] 2
      = (true, update_auction [sampleScheduled]
          { sampleScheduled with status := AuctionStatus.active }, []) :=
  (spec_C5 [sampleScheduled] 2).2.1 sampleScheduled (by decide) (by decide)

theorem place_bid_success_shape (s : ServiceState) (now : Time) (fresh : BidId)
    (aid : AuctionId) (uid : UserId) (amount : Rat) (a : Auction) (u : User)
    (ha : get_auction s.auctions aid = some a)
    (hu : get_user s.users uid = some u)
    (hs : (place_bid s now fresh aid uid amount).1 = true) :
    place_bid s now fresh aid uid amount
      = (true,
         update_auction s.auctions
           { a with
             bids := a.bids ++ [{ bid_id := fresh, auction_id := aid, user_id := uid,
                                  amount := amount, created_at := now,
                                  username := u.username }],
             current_price := amount },
         Notif.bidPlaced aid
             { bid_id := fresh, auction_id := aid, user_id := uid, amount := amount,
               created_at := now, username := u.username }
           :: (match a.current_leader with
               | some pl =>
                 if pl.user_id ≠ uid then
                   [Notif.bidOvertaken aid pl.user_id
                     { bid_id := fresh, auction_id := aid, user_id := uid,
                       amount := amount, created_at := now, username := u.username }]
                 else []
               | none => [])) := by
  unfold place_bid at hs ⊢
  rw [ha] at hs ⊢
  dsimp only at hs ⊢
  by_cases h1 : a.is_active = false
  · rw [if_pos h1] at hs
    exact Bool.noConfusion hs
  · rw [if_neg h1] at hs ⊢
    by_cases h2 : uid ∉ a.participants
    · rw [if_pos h2] at hs
      exact Bool.noConfusion hs
    · rw [if_neg h2] at hs ⊢
      by_cases h3 : amount ≤ a.current_price
      · rw [if_pos h3] at hs
        exact Bool.noConfusion hs
      · rw [if_neg h3] at hs ⊢
        rw [hu]

/-- C8: within every successful `place_bid`, the notification trace starts with
the placed-notification, the overtaken-notification follows it exactly when the
pre-state leader exists and differs from the bidder, and the overtaken target
is the leader of the state before the bid was appended. -/
theorem spec_C8 (s : ServiceState) (now : Time) (fresh : BidId) (aid : AuctionId)
    (uid : UserId) (amount : Rat) (a : Auction) (u : User)
    (ha : get_auction s.auctions aid = some a)
    (hu : get_user s.users uid = some u)
    (hs : (place_bid s now fresh aid uid amount).1 = true) :
    (place_bid s now fresh aid uid amount).2.2
      = Notif.bidPlaced aid
            { bid_id := fresh, auction_id := aid, user_id := uid, amount := amount,
              created_at := now, username := u.username }
          :: (match a.current_leader with
              | some pl =>
                if pl.user_id ≠ uid then
                  [Notif.bidOvertaken aid pl.user_id
                    { bid_id := fresh, auction_id := aid, user_id := uid,
                      amount := amount, created_at := now, username := u.username }]
                else []
              | none => [])
    ∧ ((∃ o b, Notif.bidOvertaken aid o b ∈ (place_bid s now fresh aid uid amount).2.2)
        ↔ ∃ pl, a.current_leader = some pl ∧ pl.user_id ≠ uid)
    ∧ ((place_bid s now fresh aid uid amount).2.2).head?
        = some (Notif.bidPlaced aid
            { bid_id := fresh, auction_id := aid, user_id := uid, amount := amount,
              created_at := now, username := u.username }) := by
  have heq := place_bid_success_shape s now fresh aid uid amount a u ha hu hs
  rw [heq]
  refine ⟨rfl, ?_, rfl⟩
  cases hcl : a.current_leader with
  | none => simp
  | some pl =>
    by_cases hne : pl.user_id ≠ uid
    · simp [hne]
    · simp [hne, not_ne_iff.mp hne]

theorem spec_C8_witness :
    (place_bid sampleStateLed 5 2 1 9 200).2.2
      = [Notif.bidPlaced 1 overtakeBid, Notif.bidOvertaken 1 7 overtakeBid]
    ∧ ((∃ o b, Notif.bidOvertaken 1 o b ∈ (place_bid sampleStateLed 5 2 1 9 200).2.2)
        ↔ ∃ pl, sampleActiveLed.current_leader = some pl ∧ pl.user_id ≠ 9)
    ∧ ((place_bid sampleStateLed 5 2 1 9 200).2.2).head?
        = some (Notif.bidPlaced 1 overtakeBid) :=
  spec_C8 sampleStateLed 5 2 1 9 200 sampleActiveLed blockedUser
    (by decide) (by decide) (by decide)

theorem mem_le_latestEndTime {now : Time} {active : List Auction} {t : Time}
    (ht : t ∈ active.filterMap Auction.end_time) : t ≤ latestEndTime now active := by
  unfold latestEndTime
  cases h : active.filterMap Auction.end_time with
  | nil => rw [h] at ht; cases ht
  | cons t0 ts =>
    rw [h] at ht
    rcases List.mem_cons.mp ht with rfl | htm
    · exact init_le_foldl_max ts t
    · exact mem_le_foldl_max htm t0

/-- C3: with active auctions present, `create_auction` queues the new auction
as Scheduled starting one minute after the latest active end time (hence at
least one minute after every set end time of an active auction); with none, it
starts the new auction immediately as Active; in both cases the end time is
`start_time` plus the duration (in minutes), absent when the duration is not
positive, and the new auction is appended to the store. -/
theorem spec_C3 (auctions : List Auction) (now : Time) (fresh : AuctionId)
    (creator : UserId) (title : String) (sp : Rat) (dur : Int)
    (d p ilu : Option String) :
    (get_active_auctions auctions ≠ [] →
      (newAuction auctions now fresh creator title sp dur d p ilu).status
          = AuctionStatus.scheduled
      ∧ (newAuction auctions now fresh creator title sp dur d p ilu).start_time
          = latestEndTime now (get_active_auctions auctions) + 1
      ∧ ∀ a ∈ get_active_auctions auctions, ∀ t, a.end_time = some t →
          t + 1 ≤ (newAuction auctions now fresh creator title sp dur d p ilu).start_time)
    ∧ (get_active_auctions auctions = [] →
      (newAuction auctions now fresh creator title sp dur d p ilu).status
          = AuctionStatus.active
      ∧ (newAuction auctions now fresh creator title sp dur d p ilu).start_time = now)
    ∧ (newAuction auctions now fresh creator title sp dur d p ilu).end_time
        = (if 0 < dur then
            some ((newAuction auctions now fresh creator title sp dur d p ilu).start_time
              + 60 * dur)
           else none)
    ∧ (∀ users : List User,
        create_auction ⟨users, auctions⟩ now fresh creator title sp dur d p ilu
          = (fresh, ⟨users,
              auctions ++ [newAuction auctions now fresh creator title sp dur d p ilu]⟩)) := by
  refine ⟨?_, ?_, ?_, fun users => rfl⟩
  · intro hne
    refine ⟨?_, ?_, ?_⟩
    · show (newAuctionTiming auctions now dur).2.2 = AuctionStatus.scheduled
      unfold newAuctionTiming
      rw [if_pos hne]
    · show (newAuctionTiming auctions now dur).1
        = latestEndTime now (get_active_auctions auctions) + 1
      unfold newAuctionTiming
      rw [if_pos hne]
    · intro a ha t ht
      show t + 1 ≤ (newAuctionTiming auctions now dur).1
      unfold newAuctionTiming
      rw [if_pos hne]
      show t + 1 ≤ latestEndTime now (get_active_auctions auctions) + 1
      exact add_le_add_right
        (mem_le_latestEndTime (List.mem_filterMap.mpr ⟨a, ha, ht⟩)) 1
  · intro hemp
    constructor
    · show (newAuctionTiming auctions now dur).2.2 = AuctionStatus.active
      unfold newAuctionTiming
      rw [if_neg (by rw [hemp]; exact fun hc => hc rfl)]
    · show (newAuctionTiming auctions now dur).1 = now
      unfold newAuctionTiming
      rw [if_neg (by rw [hemp]; exact fun hc => hc rfl)]
  · show (newAuctionTiming auctions now dur).2.1
      = if 0 < dur then some ((newAuctionTiming auctions now dur).1 + 60 * dur) else none
    unfold newAuctionTiming
    by_cases hne : get_active_auctions auctions ≠ []
    · rw [if_pos hne]
    · rw [if_neg hne]

theorem spec_C3_witness :
    (newAuction [sampleActive] 10 9 5 "b" 50 2 none none none).status
        = AuctionStatus.scheduled
    ∧ (newAuction [sampleActive] 10 9 5 "b" 50 2 none none none).start_time
        = latestEndTime 10 (get_active_auctions [sampleActive]) + 1
    ∧ ∀ a ∈ get_active_auctions [sampleActive], ∀ t, a.end_time = some t →
        t + 1 ≤ (newAuction [sampleActive] 10 9 5 "b" 50 2 none none none).start_time :=
  (spec_C3 [sampleActive] 10 9 5 "b" 50 2 none none none).1 (by decide)

theorem count_eq_one_of_nodup_mem {l : List UserId} {x : UserId}
    (hn : l.Nodup) (hm : x ∈ l) : l.count x = 1 := by
  induction l with
  | nil => cases hm
  | cons a l ih =>
    rw [List.nodup_cons] at hn
    rcases List.mem_cons.mp hm with rfl | hm'
    · rw [List.count_cons, List.count_eq_zero_of_not_mem hn.1]
      simp
    · have hax : ¬ (a == x) = true := by
        intro hc
        exact hn.1 (beq_iff_eq.mp hc ▸ hm')
      rw [List.count_cons, if_neg hax, ih hn.2 hm']

theorem join_auction_eq (s : ServiceState) (aid : AuctionId) (uid : UserId)
    (a : Auction) (u : User)
    (ha : get_auction s.auctions aid = some a)
    (hact : a.status = AuctionStatus.active)
    (hu : get_user s.users uid = some u) :
    join_auction s aid uid
      = (true, if uid ∈ a.participants then s.auctions
               else update_auction s.auctions
                 { a with participants := a.participants ++ [uid] }) := by
  unfold join_auction
  rw [ha]
  dsimp only
  rw [if_neg (by simp [Auction.is_active, hact]), hu]
  dsimp only
  by_cases hmem : uid ∉ a.participants
  · rw [if_pos hmem, if_neg hmem]
  · rw [if_neg hmem, if_pos (not_not.mp hmem)]

/-- C9: joining an active auction twice with the same registered user leaves
the user's id in the participants list exactly once, and the second call
succeeds rather than erroring. -/
theorem spec_C9 (users : List User) (ops : List Op) (aid : AuctionId) (uid : UserId)
    (a : Auction) (u : User)
    (ha : get_auction (runOps (initState users) ops).auctions aid = some a)
    (hact : a.status = AuctionStatus.active)
    (hu : get_user users uid = some u) :
    (join_auction (runOps (initState users) ops) aid uid).1 = true
    ∧ (join_auction
        { users := users,
          auctions := (join_auction (runOps (initState users) ops) aid uid).2 }
        aid uid).1 = true
    ∧ ∃ a2, get_auction (join_auction
        { users := users,
          auctions := (join_auction (runOps (initState users) ops) aid uid).2 }
        aid uid).2 aid = some a2
      ∧ a2.participants.count uid = 1 := by
  have hinv := allInv_runOps users ops a (get_auction_mem ha).1
  have hnd : a.participants.Nodup := hinv.2.2.2.2
  have hu' : get_user (runOps (initState users) ops).users uid = some u := by
    rw [users_runOps]; exact hu
  have h1 := join_auction_eq (runOps (initState users) ops) aid uid a u ha hact hu'
  by_cases hmem : uid ∈ a.participants
  · rw [h1, if_pos hmem]
    have h2 := join_auction_eq
      { users := users, auctions := (runOps (initState users) ops).auctions }
      aid uid a u ha hact hu
    rw [h2, if_pos hmem]
    exact ⟨rfl, rfl, a, ha, count_eq_one_of_nodup_mem hnd hmem⟩
  · rw [h1, if_neg hmem]
    have hga2 : get_auction
        (update_auction (runOps (initState users) ops).auctions
          { a with participants := a.participants ++ [uid] }) aid
        = some { a with participants := a.participants ++ [uid] } :=
      get_auction_update_self ha (get_auction_mem ha).2
    have hmem2 : uid ∈ ({ a with participants := a.participants ++ [uid] } :
        Auction).participants := by
      show uid ∈ a.participants ++ [uid]
      simp
    have h2 := join_auction_eq
      { users := users,
        auctions := update_auction (runOps (initState users) ops).auctions
          { a with participants := a.participants ++ [uid] } }
      aid uid { a with participants := a.participants ++ [uid] } u hga2 hact hu
    rw [h2, if_pos hmem2]
    refine ⟨rfl, rfl, { a with participants := a.participants ++ [uid] }, hga2, ?_⟩
    show (a.participants ++ [uid]).count uid = 1
    rw [List.count_append, List.count_eq_zero_of_not_mem hmem]
    simp

theorem spec_C9_witness :
    (join_auction (runOps (initState sampleUsers) [Op.createA 0 1 5 "t" 100 1]) 1 7).1 = true
    ∧ (join_auction
        { users := sampleUsers,
          auctions := (join_auction
            (runOps (initState sampleUsers) [Op.createA 0 1 5 "t" 100 1]) 1 7).2 }
        1 7).1 = true
    ∧ ∃ a2, get_auction (join_auction
        { users := sampleUsers,
          auctions := (join_auction
            (runOps (initState sampleUsers) [Op.createA 0 1 5 "t" 100 1]) 1 7).2 }
        1 7).2 1 = some a2
      ∧ a2.participants.count 7 = 1 :=
  spec_C9 sampleUsers [Op.createA 0 1 5 "t" 100 1] 1 7 witnessAuction sampleUser
    (by decide) (by decide) (by decide)

/-- C1: on every state reachable by the lifecycle operations and scheduler
sweeps from an empty store, each auction's current price equals its start price
when the bid list is empty, and otherwise equals the maximum bid amount in the
bid list (attained by some bid and bounding all of them). -/
theorem spec_C1 (users : List User) (ops : List Op) (a : Auction)
    (ha : a ∈ (runOps (initState users) ops).auctions) :
    (a.bids = [] → a.current_price = a.start_price)
    ∧ (a.bids ≠ [] →
        (∀ b ∈ a.bids, b.amount ≤ a.current_price)
        ∧ ∃ b ∈ a.bids, b.amount = a.current_price) := by
  obtain ⟨hmax, hchain, hstart, hlast, hnd⟩ := allInv_runOps users ops a ha
  constructor
  · intro hemp
    rw [hmax, hemp, maxAmount_nil]
  · intro hne
    constructor
    · intro b hb
      rw [hmax]
      exact bid_le_maxAmount hb _
    · rcases getLast?_of_ne_nil hne with ⟨b, hbl, hbm⟩
      exact ⟨b, hbm, hlast b hbl⟩

theorem spec_C1_witness :
    witnessAuctionBid ∈ (runOps (initState sampleUsers) witnessOps).auctions
    ∧ ((witnessAuctionBid.bids = []
          → witnessAuctionBid.current_price = witnessAuctionBid.start_price)
       ∧ (witnessAuctionBid.bids ≠ [] →
           (∀ b ∈ witnessAuctionBid.bids, b.amount ≤ witnessAuctionBid.current_price)
           ∧ ∃ b ∈ witnessAuctionBid.bids,
               b.amount = witnessAuctionBid.current_price)) :=
  ⟨by decide, spec_C1 sampleUsers witnessOps witnessAuctionBid (by decide)⟩

theorem activate_scheduled_eq {auctions : List Auction} {aid : AuctionId} {a : Auction}
    (ha : get_auction auctions aid = some a)
    (hsch : a.status = AuctionStatus.scheduled) :
    activate_scheduled_auction auctions aid
      = (true, update_auction auctions { a with status := AuctionStatus.active }, []) := by
  unfold activate_scheduled_auction
  rw [ha]
  dsimp only
  rw [if_neg (not_ne_iff.mpr hsch)]

/-- C4: in one scheduler tick every Active auction whose end time has passed
becomes Completed with the winner set to the current leader's user id (if any);
a scheduled auction is considered only when zero Active auctions remain after
the expiry sweep (the activation check runs on the post-sweep store, so the
sweep completes first), and then the earliest-start Scheduled auction whose
start time has passed is activated, with its started-notification, in the same
tick. -/
theorem spec_C4 (s : ServiceState) (now : Time)
    (hids : (s.auctions.map Auction.auction_id).Nodup) :
    (∀ a ∈ s.auctions, a.status = AuctionStatus.active →
      ∀ t, a.end_time = some t → t ≤ now →
      get_auction (checkExpiredAuctions s now).1 a.auction_id
        = some (completeAuction a))
    ∧ (get_active_auctions (expirySweep now s.auctions).1 ≠ [] →
        checkExpiredAuctions s now = expirySweep now s.auctions)
    ∧ (∀ next rest,
        get_active_auctions (expirySweep now s.auctions).1 = [] →
        get_scheduled_auctions (expirySweep now s.auctions).1 = next :: rest →
        next.start_time ≤ now →
        get_auction (checkExpiredAuctions s now).1 next.auction_id
          = some { next with status := AuctionStatus.active }
        ∧ (checkExpiredAuctions s now).2
          = (expirySweep now s.auctions).2 ++ [Notif.auctionStarted next.auction_id]
        ∧ ∀ b ∈ (expirySweep now s.auctions).1, b.status = AuctionStatus.scheduled →
            next.start_time ≤ b.start_time) := by
  have hsw_ids : ((expirySweep now s.auctions).1.map Auction.auction_id).Nodup :=
    expirySweep_ids now s.auctions hids
  refine ⟨?_, ?_, ?_⟩
  · intro a ha hact t het hle
    have hexp : auctionExpired now a = true := by
      unfold auctionExpired
      rw [het]
      exact decide_eq_true hle
    have hstep : expireStep now a = completeAuction a := by
      unfold expireStep gExpire
      rw [if_pos hact, if_pos hexp]
    have hga_swept : get_auction (expirySweep now s.auctions).1 a.auction_id
        = some (completeAuction a) := by
      rw [← hstep]
      exact get_auction_expirySweep hids ha
    unfold checkExpiredAuctions
    dsimp only
    by_cases hemp : (get_active_auctions (expirySweep now s.auctions).1).isEmpty = true
    · rw [if_pos hemp]
      cases hsch : get_scheduled_auctions (expirySweep now s.auctions).1 with
      | nil => exact hga_swept
      | cons next rest =>
        dsimp only
        by_cases hstart : next.start_time ≤ now
        · rw [if_pos hstart]
          have hnmem := mem_get_scheduled_iff.mp
            (hsch ▸ List.mem_cons_self next rest)
          have hnext_ga := get_auction_of_mem_nodup hsw_ids hnmem.1
          rw [activate_scheduled_eq hnext_ga hnmem.2]
          dsimp only
          have hneid : ({ next with status := AuctionStatus.active } :
              Auction).auction_id ≠ a.auction_id := by
            show next.auction_id ≠ a.auction_id
            intro hc
            have h1 : get_auction (expirySweep now s.auctions).1 next.auction_id
                = some next := hnext_ga
            rw [hc, hga_swept] at h1
            injection h1 with h2
            have h3 : next.status = AuctionStatus.completed := by
              rw [← h2]
              rfl
            rw [hnmem.2] at h3
            cases h3
          rw [get_auction_update_ne hneid]
          exact hga_swept
        · rw [if_neg hstart]
          exact hga_swept
    · rw [if_neg hemp]
      exact hga_swept
  · intro hne
    unfold checkExpiredAuctions
    dsimp only
    rw [if_neg (fun hc => hne (List.isEmpty_iff.mp hc))]
  · intro next rest hemp0 hsch hstart
    have hnmem := mem_get_scheduled_iff.mp (hsch ▸ List.mem_cons_self next rest)
    have hnext_ga := get_auction_of_mem_nodup hsw_ids hnmem.1
    have hred : checkExpiredAuctions s now
        = (update_auction (expirySweep now s.auctions).1
            { next with status := AuctionStatus.active },
           (expirySweep now s.auctions).2 ++ []
             ++ [Notif.auctionStarted next.auction_id]) := by
      unfold checkExpiredAuctions
      dsimp only
      rw [if_pos (List.isEmpty_iff.mpr hemp0), hsch]
      dsimp only
      rw [if_pos hstart, activate_scheduled_eq hnext_ga hnmem.2]
    refine ⟨?_, ?_, ?_⟩
    · rw [hred]
      exact get_auction_update_self hnext_ga rfl
    · rw [hred]
      simp
    · intro b hb hbs
      have hbf : b ∈ (expirySweep now s.auctions).1.filter (fun a => a.is_scheduled) :=
        List.mem_filter.mpr ⟨hb, by simp [Auction.is_scheduled, hbs]⟩
      have hsch' : sortByStart
          ((expirySweep now s.auctions).1.filter (fun a => a.is_scheduled))
          = next :: rest := hsch
      exact sortByStart_head_min hsch' b hbf

theorem spec_C4_witness :
    get_auction (checkExpiredAuctions sampleSchedState 61).1 sampleActiveLed.auction_id
      = some (completeAuction sampleActiveLed)
    ∧ (get_auction (checkExpiredAuctions sampleSchedState 61).1 sampleScheduled.auction_id
        = some { sampleScheduled with status := AuctionStatus.active }
       ∧ (checkExpiredAuctions sampleSchedState 61).2
          = (expirySweep 61 sampleSchedState.auctions).2
              ++ [Notif.auctionStarted sampleScheduled.auction_id]
       ∧ ∀ b ∈ (expirySweep 61 sampleSchedState.auctions).1,
           b.status = AuctionStatus.scheduled →
           sampleScheduled.start_time ≤ b.start_time) :=
  ⟨(spec_C4 sampleSchedState 61 (by decide)).1 sampleActiveLed (by decide) (by decide)
      60 (by decide) (by decide),
   (spec_C4 sampleSchedState 61 (by decide)).2.2 sampleScheduled [] (by decide)
      (by decide) (by decide)⟩

end AuctionBot
